import Mathlib

/-!
Verification of the product-analytics / A/B-testing pipeline.

Shallow embedding of the analytics and experiment engines:
`prepare_events`, `build_cohorts`, `build_funnel` (analytics.py) and
`random_assign_users`, `user_metric`, `srm_check`, `cuped_adjust` (ab_test.py).

Conventions of the embedding:
* tables are lists of record structures, in row order;
* timestamps are unix seconds (`Int`), matching `pd.to_datetime(_, unit="s")`
  which is a bijective relabelling of the integer seconds;
* ratings and float arithmetic are exact rationals (`Rat`);
* the pandas period projection `ts.dt.to_period(period).dt.start_time` is an
  arbitrary function parameter `pf : Int → Int` (claims hold for every choice);
* the numpy PCG64 stream `default_rng(seed).random(n)` is an arbitrary
  function parameter `rng : Nat → Nat → Rat` mapping (seed, index) to the
  drawn uniform value, reflecting that the stream is a pure function of the
  seed and the draw index;
* the scipy chi-square(df=1) survival function `x ↦ 1 - chi2.cdf(x, df=1)` is
  an arbitrary function parameter `sf : ℝ → ℝ` constrained by two facts true
  of that distribution: `sf 0 = 1` and the Chernoff bound
  `sf x ≤ exp (-(x/2))` for `x ≥ 0`.
-/

namespace ProductAnalytics

/-- Event types derived from ratings in `prepare_events`. -/
inductive EventType where
  | view
  | like
  | comment
deriving DecidableEq, Repr

/-- One row of the input ratings table: (userId, movieId, rating, timestamp)
with `timestamp` in unix seconds and rating an exact rational. -/
structure RatingRow where
  userId : Int
  movieId : Int
  rating : Rat
  timestamp : Int
deriving DecidableEq, Repr

/-- One row of the derived event log (columns user_id, item_id, ts, event). -/
structure EventRow where
  user_id : Int
  item_id : Int
  ts : Int
  event : EventType
deriving DecidableEq, Repr

/-- The `view` event derived from a rating row: same user, item and timestamp. -/
def viewOf (r : RatingRow) : EventRow :=
  ⟨r.userId, r.movieId, r.timestamp, .view⟩

/-- The `like` event derived from a rating row with rating ≥ 4. -/
def likeOf (r : RatingRow) : EventRow :=
  ⟨r.userId, r.movieId, r.timestamp, .like⟩

/-- The `comment` event derived from a rating row with rating ≥ 4.5. -/
def commentOf (r : RatingRow) : EventRow :=
  ⟨r.userId, r.movieId, r.timestamp, .comment⟩

/-- Boolean timestamp comparison used to sort the event log
(`events.sort_values("ts")`). -/
def tsLe (a b : EventRow) : Bool :=
  a.ts ≤ b.ts

/-- Embedding of `analytics.prepare_events` (the events component): every
rating row yields a `view`; rows with rating ≥ 4 also yield a `like`; rows
with rating ≥ 4.5 also yield a `comment`; the three blocks are concatenated
and stably sorted by timestamp ascending. -/
def prepare_events (ratings : List RatingRow) : List EventRow :=
  let views := ratings.map viewOf
  let likes := (ratings.filter (fun r => decide (4 ≤ r.rating))).map likeOf
  let comments := (ratings.filter (fun r => decide ((9 : Rat)/2 ≤ r.rating))).map commentOf
  (views ++ likes ++ comments).mergeSort tsLe

/-- Distinct users of an event log, in first-occurrence order: the key set
of a pandas `groupby("user_id")`. -/
def usersOf (evs : List EventRow) : List Int :=
  (evs.map (fun e => e.user_id)).dedup

/-- The rows of one user within an event log. -/
def eventsOfUser (evs : List EventRow) (u : Int) : List EventRow :=
  evs.filter (fun e => decide (e.user_id = u))

/-- Minimum of a list of integers, 0 on the empty list; the pipeline only
applies it to a user's own event list, which is nonempty for every user it
iterates over. -/
def minInt : List Int → Int
  | [] => 0
  | t :: ts => ts.foldl min t

/-- Per-user first-event timestamp t0, as in
`events.groupby("user_id")["ts"].min()`. -/
def t0 (evs : List EventRow) (u : Int) : Int :=
  minInt ((eventsOfUser evs u).map (fun e => e.ts))

/-- Days elapsed between an event and its user's t0, the column
`(ev["ts"] - ev["t0"]).dt.total_seconds() / 86400` as an exact rational. -/
def daysSince (evs : List EventRow) (e : EventRow) : Rat :=
  (((e.ts - t0 evs e.user_id : Int) : Rat)) / 86400

/-- A user's cohort: the minimum of `pf ts` over the user's events, where
`pf : Int → Int` embeds the period projection
`ts.dt.to_period(period).dt.start_time` (an arbitrary function of the
timestamp); this is `ev.groupby("user_id")["period"].min()`. -/
def cohortOf (pf : Int → Int) (evs : List EventRow) (u : Int) : Int :=
  minInt ((eventsOfUser evs u).map (fun e => pf e.ts))

/-- Whether a user has at least one event in period p. -/
def activeInPeriod (pf : Int → Int) (evs : List EventRow) (u p : Int) : Bool :=
  (eventsOfUser evs u).any (fun e => decide (pf e.ts = p))

/-- Distinct active users of cohort c in period p, as in
`ev.groupby(["cohort","period"])["user_id"].nunique()`. -/
def activeUsers (pf : Int → Int) (evs : List EventRow) (c p : Int) : Nat :=
  ((usersOf evs).filter
    (fun u => decide (cohortOf pf evs u = c) && activeInPeriod pf evs u p)).length

/-- The distinct (cohort, period) pairs occurring in the event log: the
groupby keys of the retention table. -/
def cohortPairs (pf : Int → Int) (evs : List EventRow) : List (Int × Int) :=
  (evs.map (fun e => (cohortOf pf evs e.user_id, pf e.ts))).dedup

/-- One output row of `build_cohorts`. -/
structure CohortRow where
  cohort : Int
  period : Int
  active_users : Nat
  cohort_size : Nat
  retention_rate : Rat
deriving DecidableEq, Repr

/-- Lexicographic (cohort, period) order of the final
`sort_values(["cohort","period"])`. -/
def cohortRowLe (a b : CohortRow) : Bool :=
  a.cohort < b.cohort || (a.cohort == b.cohort && a.period ≤ b.period)

/-- Embedding of `analytics.build_cohorts`: one row per occurring
(cohort, period) pair, holding the distinct active-user count, the
left-joined cohort size and `retention_rate = active_users / cohort_size`
(a direct division, no epsilon), sorted by (cohort, period). The join key
row — the row whose period equals the cohort — always exists because the
user generating a pair attains its period minimum, so the joined
cohort_size is `activeUsers pf evs c c` (proved in
`cohort_start_pair_mem`). -/
def build_cohorts (pf : Int → Int) (evs : List EventRow) : List CohortRow :=
  ((cohortPairs pf evs).map (fun cp =>
    { cohort := cp.1
      period := cp.2
      active_users := activeUsers pf evs cp.1 cp.2
      cohort_size := activeUsers pf evs cp.1 cp.1
      retention_rate :=
        (activeUsers pf evs cp.1 cp.2 : Rat) /
          (activeUsers pf evs cp.1 cp.1 : Rat) : CohortRow })).mergeSort cohortRowLe

/-- Modelled from the spec: the epsilon-guarded retention rate
`active_users / (cohort_size + ε)` with a small additive epsilon (1e-9),
which claim C6 asserts the cohort computation uses; the code's
`build_cohorts` instead divides directly. -/
def retentionRateClaimEps (active coSize : Nat) : Rat :=
  (active : Rat) / ((coSize : Rat) + 1/1000000000)

/-- One output row of `build_funnel`. -/
structure FunnelRow where
  step : String
  users : Nat
  rate_vs_signup : Rat
deriving DecidableEq, Repr

/-- Number of `view` events of user u within 3 days of the user's own t0
(the `views_3d` aggregate of `build_funnel`). -/
def views3d (evs : List EventRow) (u : Int) : Nat :=
  ((eventsOfUser evs u).filter
    (fun e => decide (e.event = .view) && decide (daysSince evs e ≤ 3))).length

/-- Number of events of user u in the half-open day-7 window
7 ≤ days_since < 8 (the `events_day7` aggregate of `build_funnel`). -/
def day7Events (evs : List EventRow) (u : Int) : Nat :=
  ((eventsOfUser evs u).filter
    (fun e => decide (7 ≤ daysSince evs e) && decide (daysSince evs e < 8))).length

/-- Embedding of `analytics.build_funnel`: step 1 counts all distinct
users; step 2 the users with ≥ 5 views within 3 days of their t0 (the
groupby over the filtered events followed by `>= 5` equals filtering the
full user list by that count); step 3 the users with ≥ 1 event in the
day-7 window (`events_day7 > 0`); each rate is the count divided by the
signup count. -/
def build_funnel (evs : List EventRow) : List FunnelRow :=
  let users := usersOf evs
  let signup := users.length
  let activation := (users.filter (fun u => decide (5 ≤ views3d evs u))).length
  let week1 := (users.filter (fun u => decide (1 ≤ day7Events evs u))).length
  [ { step := "signup", users := signup
      rate_vs_signup := (signup : Rat) / (signup : Rat) },
    { step := "activation(5 views in 3d)", users := activation
      rate_vs_signup := (activation : Rat) / (signup : Rat) },
    { step := "day7_retention", users := week1
      rate_vs_signup := (week1 : Rat) / (signup : Rat) } ]

/-- Embedding of `ab_test.user_metric`: keep the `view` rows with
`days_since ≤ window_days` (days_since measured from each user's own t0
over the full log), then one row per distinct user of the filtered table
carrying that user's row count. -/
def user_metric (evs : List EventRow) (window_days : Int) : List (Int × Nat) :=
  let in_win := evs.filter
    (fun e => decide (e.event = .view) && decide (daysSince evs e ≤ (window_days : Rat)))
  (usersOf in_win).map (fun u =>
    (u, (in_win.filter (fun e => decide (e.user_id = u))).length))

/-- Stated from claim C8's words: the count of a user's `view` events whose
timestamp lies in the closed window [t0, t0 + W days] measured from the
user's own first-event timestamp t0. -/
def windowViewsClaim (evs : List EventRow) (window_days : Int) (u : Int) : Nat :=
  ((eventsOfUser evs u).filter (fun e =>
    decide (e.event = .view) && decide (t0 evs u ≤ e.ts) &&
      decide (e.ts ≤ t0 evs u + window_days * 86400))).length

/-- Variant labels T / C of the assignment table. -/
inductive Variant where
  | T
  | C
deriving DecidableEq, Repr

/-- Index-tracking recursion behind `random_assign_users`: user at stream
index i is Treatment exactly when its uniform draw `rng seed i` is < p. -/
def assignFrom (rng : Nat → Nat → Rat) (seed : Nat) (p_treat : Rat) :
    Nat → List Int → List (Int × Variant)
  | _, [] => []
  | i, u :: us =>
    (u, if rng seed i < p_treat then Variant.T else Variant.C) ::
      assignFrom rng seed p_treat (i + 1) us

/-- Embedding of `ab_test.random_assign_users`: `rng : Nat → Nat → Rat`
models `np.random.default_rng(seed).random`, the uniform draw at each
stream index as a pure function of the seed (the generator state is fully
determined by the seed, and `random(n)` reads indices 0..n-1 in order). -/
def random_assign_users (rng : Nat → Nat → Rat) (users : List Int)
    (seed : Nat) (p_treat : Rat) : List (Int × Variant) :=
  assignFrom rng seed p_treat 0 users

/-- Chi-square statistic of `ab_test.srm_check`: observed T/C counts
against the expected 50/50 split, `((observed - expected)^2/expected).sum()`
with `expected = [0.5*total, 0.5*total]` — a two-cell goodness-of-fit
statistic. -/
def srm_chi2 (assignments : List Variant) : Rat :=
  let nT : Rat := ((assignments.filter (fun v => decide (v = Variant.T))).length : Rat)
  let nC : Rat := ((assignments.filter (fun v => decide (v = Variant.C))).length : Rat)
  let total := nT + nC
  (nT - total/2)^2 / (total/2) + (nC - total/2)^2 / (total/2)

/-- Embedding of `ab_test.srm_check`: returns `sf χ²` where
`sf : ℝ → ℝ` embeds the right-tail `1 - chi2.cdf(·, df=1)` of scipy. The
claims are proved for every `sf` satisfying two facts true of the
chi-square(1) survival function: `sf 0 = 1` and the Chernoff tail bound
`sf x ≤ exp (-(x/2))` for `x ≥ 0`. -/
def srm_check (sf : ℝ → ℝ) (assignments : List Variant) : ℝ :=
  sf ((srm_chi2 assignments : Rat) : ℝ)

/-- Arithmetic mean of a list of rationals (pandas `Series.mean`). -/
def listMean (l : List Rat) : Rat :=
  l.sum / (l.length : Rat)

/-- pandas `Series.cov` of two aligned series: sample covariance with
Bessel's correction (divide by n − 1). -/
def sampleCov (x y : List Rat) : Rat :=
  (((x.zip y).map (fun p => (p.1 - listMean x) * (p.2 - listMean y))).sum) /
    ((x.length : Rat) - 1)

/-- pandas `Series.var`: sample variance with Bessel's correction. -/
def sampleVar (x : List Rat) : Rat :=
  ((x.map (fun v => (v - listMean x) ^ 2)).sum) / ((x.length : Rat) - 1)

/-- Embedding of `ab_test.cuped_adjust`:
θ = Cov(x,y) / (Var(x) + 1e-9), rows y_i − θ·x_i. -/
def cuped_adjust (y x_cov : List Rat) : List Rat :=
  let theta := sampleCov x_cov y / (sampleVar x_cov + 1/1000000000)
  (y.zip x_cov).map (fun p => p.1 - theta * p.2)

end ProductAnalytics

namespace ProductAnalytics

theorem tsLe_trans : ∀ a b c : EventRow, tsLe a b → tsLe b c → tsLe a c := by
  intro a b c hab hbc
  simp only [tsLe, decide_eq_true_eq] at *
  omega

theorem tsLe_total : ∀ a b : EventRow, tsLe a b || tsLe b a := by
  intro a b
  simp only [tsLe, Bool.or_eq_true, decide_eq_true_eq]
  omega

theorem prepare_events_perm (ratings : List RatingRow) :
    (prepare_events ratings).Perm
      (ratings.map viewOf ++
        (ratings.filter (fun r => decide (4 ≤ r.rating))).map likeOf ++
        (ratings.filter (fun r => decide ((9 : Rat)/2 ≤ r.rating))).map commentOf) :=
  List.mergeSort_perm _ _

/-- C1: the event deriver produces exactly one `view` event per rating row,
one `like` event per rating row with rating ≥ 4, and one `comment` event per
rating row with rating ≥ 4.5 — stated as: the views (resp. likes, comments)
of the output are a permutation of the corresponding per-rating-row derived
events, each of which carries the originating rating's user, item and
timestamp by construction of `viewOf` / `likeOf` / `commentOf` — and the
resulting event log is sorted by timestamp ascending. -/
theorem prepare_events_spec (ratings : List RatingRow) :
    ((prepare_events ratings).filter (fun e => decide (e.event = .view))).Perm
        (ratings.map viewOf) ∧
    ((prepare_events ratings).filter (fun e => decide (e.event = .like))).Perm
        ((ratings.filter (fun r => decide (4 ≤ r.rating))).map likeOf) ∧
    ((prepare_events ratings).filter (fun e => decide (e.event = .comment))).Perm
        ((ratings.filter (fun r => decide ((9 : Rat)/2 ≤ r.rating))).map commentOf) ∧
    (prepare_events ratings).Pairwise (fun a b => a.ts ≤ b.ts) := by
  have hperm := prepare_events_perm ratings
  have hfil : ∀ (t : EventType) (f : RatingRow → EventRow) (l : List RatingRow),
      (∀ r, (f r).event = t) →
      ∀ u : EventType,
        (l.map f).filter (fun e => decide (e.event = u)) =
          if t = u then l.map f else [] := by
    intro t f l hf u
    by_cases h : t = u
    · subst h
      simp only [if_pos rfl]
      refine List.filter_eq_self.mpr ?_
      intro a ha
      rcases List.mem_map.mp ha with ⟨r, _, rfl⟩
      simp [hf r]
    · rw [if_neg h]
      refine List.filter_eq_nil_iff.mpr ?_
      intro a ha
      rcases List.mem_map.mp ha with ⟨r, _, rfl⟩
      simp [hf r, h]
  have hv := hfil .view viewOf ratings (fun r => rfl)
  have hl := hfil .like likeOf (ratings.filter (fun r => decide (4 ≤ r.rating))) (fun r => rfl)
  have hc := hfil .comment commentOf
    (ratings.filter (fun r => decide ((9 : Rat)/2 ≤ r.rating))) (fun r => rfl)
  refine ⟨?_, ?_, ?_, ?_⟩
  · refine (hperm.filter _).trans ?_
    simp only [List.filter_append, hv EventType.view, hl EventType.view, hc EventType.view]
    simp
  · refine (hperm.filter _).trans ?_
    simp only [List.filter_append, hv EventType.like, hl EventType.like, hc EventType.like]
    simp
  · refine (hperm.filter _).trans ?_
    simp only [List.filter_append, hv EventType.comment, hl EventType.comment, hc EventType.comment]
    simp
  · have hs := List.sorted_mergeSort tsLe_trans tsLe_total
      (ratings.map viewOf ++
        (ratings.filter (fun r => decide (4 ≤ r.rating))).map likeOf ++
        (ratings.filter (fun r => decide ((9 : Rat)/2 ≤ r.rating))).map commentOf)
    refine List.Pairwise.imp ?_ hs
    intro a b h
    simpa [tsLe] using h

end ProductAnalytics

namespace ProductAnalytics

theorem foldl_min_spec (ts : List Int) :
    ∀ t : Int, ts.foldl min t ∈ t :: ts ∧ ∀ x ∈ t :: ts, ts.foldl min t ≤ x := by
  induction ts with
  | nil =>
    intro t
    refine ⟨by simp, ?_⟩
    intro x hx
    simp only [List.foldl_nil]
    simp only [List.mem_singleton] at hx
    omega
  | cons a ts ih =>
    intro t
    have h := ih (min t a)
    simp only [List.foldl_cons]
    constructor
    · rcases List.mem_cons.mp h.1 with he | he
      · rcases min_choice t a with hc | hc
        · rw [he, hc]; exact List.mem_cons_self _ _
        · rw [he, hc]; exact List.mem_cons_of_mem _ (List.mem_cons_self _ _)
      · exact List.mem_cons_of_mem _ (List.mem_cons_of_mem _ he)
    · intro x hx
      rcases List.mem_cons.mp hx with hx | hx
      · subst hx
        have := h.2 (min x a) (List.mem_cons_self _ _)
        have hm : min x a ≤ x := min_le_left _ _
        omega
      · rcases List.mem_cons.mp hx with hx | hx
        · subst hx
          have := h.2 (min t x) (List.mem_cons_self _ _)
          have hm : min t x ≤ x := min_le_right _ _
          omega
        · exact h.2 x (List.mem_cons_of_mem _ hx)

theorem minInt_mem {l : List Int} (h : l ≠ []) : minInt l ∈ l := by
  cases l with
  | nil => exact absurd rfl h
  | cons t ts => exact (foldl_min_spec ts t).1

theorem minInt_le {l : List Int} : ∀ x ∈ l, minInt l ≤ x := by
  cases l with
  | nil => intro x hx; cases hx
  | cons t ts => exact (foldl_min_spec ts t).2

theorem mem_usersOf {evs : List EventRow} {u : Int} :
    u ∈ usersOf evs ↔ ∃ e ∈ evs, e.user_id = u := by
  simp [usersOf, List.mem_dedup, List.mem_map]

theorem eventsOfUser_ne_nil {evs : List EventRow} {u : Int}
    (h : u ∈ usersOf evs) : eventsOfUser evs u ≠ [] := by
  rcases mem_usersOf.mp h with ⟨e, he, hu⟩
  have : e ∈ eventsOfUser evs u := by
    simp [eventsOfUser, List.mem_filter, he, hu]
  intro hnil
  rw [hnil] at this
  cases this

theorem cohortOf_attained (pf : Int → Int) {evs : List EventRow} {u : Int}
    (h : u ∈ usersOf evs) :
    ∃ e ∈ eventsOfUser evs u, pf e.ts = cohortOf pf evs u := by
  have hne : ((eventsOfUser evs u).map (fun e => pf e.ts)) ≠ [] := by
    intro hnil
    exact eventsOfUser_ne_nil h (List.map_eq_nil_iff.mp hnil)
  have hmem := minInt_mem hne
  rcases List.mem_map.mp hmem with ⟨e, he, hp⟩
  exact ⟨e, he, by rw [hp]; rfl⟩

theorem activeInPeriod_cohort {pf : Int → Int} {evs : List EventRow} {u : Int}
    (h : u ∈ usersOf evs) :
    activeInPeriod pf evs u (cohortOf pf evs u) = true := by
  rcases cohortOf_attained pf h with ⟨e, he, hp⟩
  simp only [activeInPeriod, List.any_eq_true]
  exact ⟨e, he, by simp [hp]⟩

theorem activeUsers_le_size (pf : Int → Int) (evs : List EventRow) (c p : Int) :
    activeUsers pf evs c p ≤ activeUsers pf evs c c := by
  simp only [activeUsers, ← List.countP_eq_length_filter]
  refine List.countP_mono_left ?_
  intro u hu hup
  simp only [Bool.and_eq_true, decide_eq_true_eq] at hup ⊢
  refine ⟨hup.1, ?_⟩
  rw [← hup.1]
  exact activeInPeriod_cohort hu

theorem mem_cohortPairs {pf : Int → Int} {evs : List EventRow} {c p : Int} :
    (c, p) ∈ cohortPairs pf evs ↔
      ∃ e ∈ evs, cohortOf pf evs e.user_id = c ∧ pf e.ts = p := by
  simp only [cohortPairs, List.mem_dedup, List.mem_map, Prod.mk.injEq]

theorem cohort_start_pair_mem {pf : Int → Int} {evs : List EventRow} {c p : Int}
    (h : (c, p) ∈ cohortPairs pf evs) : (c, c) ∈ cohortPairs pf evs := by
  rcases mem_cohortPairs.mp h with ⟨e, he, hc, _⟩
  have hu : e.user_id ∈ usersOf evs := mem_usersOf.mpr ⟨e, he, rfl⟩
  rcases cohortOf_attained pf hu with ⟨e2, he2, hp2⟩
  have he2evs : e2 ∈ evs := List.mem_of_mem_filter he2
  have he2u : e2.user_id = e.user_id := by
    have := (List.mem_filter.mp he2).2
    simpa using this
  refine mem_cohortPairs.mpr ⟨e2, he2evs, ?_, ?_⟩
  · rw [he2u]; exact hc
  · rw [hp2]; exact hc

theorem activeUsers_size_pos {pf : Int → Int} {evs : List EventRow} {c p : Int}
    (h : (c, p) ∈ cohortPairs pf evs) : 1 ≤ activeUsers pf evs c c := by
  rcases mem_cohortPairs.mp h with ⟨e, he, hc, _⟩
  have hu : e.user_id ∈ usersOf evs := mem_usersOf.mpr ⟨e, he, rfl⟩
  have hmem : e.user_id ∈ (usersOf evs).filter
      (fun u => decide (cohortOf pf evs u = c) && activeInPeriod pf evs u c) := by
    refine List.mem_filter.mpr ⟨hu, ?_⟩
    simp only [Bool.and_eq_true, decide_eq_true_eq]
    refine ⟨hc, ?_⟩
    rw [← hc]
    exact activeInPeriod_cohort hu
  have : 0 < ((usersOf evs).filter
      (fun u => decide (cohortOf pf evs u = c) && activeInPeriod pf evs u c)).length :=
    List.length_pos.mpr (List.ne_nil_of_mem hmem)
  simpa [activeUsers] using this

theorem mem_build_cohorts {pf : Int → Int} {evs : List EventRow} {row : CohortRow} :
    row ∈ build_cohorts pf evs ↔
      ∃ cp ∈ cohortPairs pf evs,
        row = { cohort := cp.1
                period := cp.2
                active_users := activeUsers pf evs cp.1 cp.2
                cohort_size := activeUsers pf evs cp.1 cp.1
                retention_rate :=
                  (activeUsers pf evs cp.1 cp.2 : Rat) /
                    (activeUsers pf evs cp.1 cp.1 : Rat) } := by
  simp only [build_cohorts, List.mem_mergeSort, List.mem_map]
  constructor
  · rintro ⟨cp, hcp, rfl⟩; exact ⟨cp, hcp, rfl⟩
  · rintro ⟨cp, hcp, rfl⟩; exact ⟨cp, hcp, rfl⟩

/-- C9: in every row of the cohort/retention output, active_users ≤
cohort_size, and hence retention_rate ≤ 1: every user active in any
observed period of a cohort also belongs to the users active in the
cohort's starting period, which is the whole cohort. -/
theorem build_cohorts_active_le_size (pf : Int → Int) (evs : List EventRow)
    (row : CohortRow) (hrow : row ∈ build_cohorts pf evs) :
    row.active_users ≤ row.cohort_size ∧ row.retention_rate ≤ 1 := by
  rcases mem_build_cohorts.mp hrow with ⟨cp, hcp, rfl⟩
  have hle := activeUsers_le_size pf evs cp.1 cp.2
  have hpos := activeUsers_size_pos hcp
  refine ⟨hle, ?_⟩
  have hpos' : (0 : Rat) < (activeUsers pf evs cp.1 cp.1 : Rat) := by
    exact_mod_cast hpos
  have hle' : (activeUsers pf evs cp.1 cp.2 : Rat) ≤ (activeUsers pf evs cp.1 cp.1 : Rat) := by
    exact_mod_cast hle
  exact (div_le_one hpos').mpr hle'

/-- C9 witness: the single-event log has exactly one cohort row, with
active_users ≤ cohort_size and retention rate at most 1. -/
theorem build_cohorts_active_le_size_witness :
    ∃ row ∈ build_cohorts id [{ user_id := 1, item_id := 1, ts := 0, event := .view }],
      row.active_users ≤ row.cohort_size ∧ row.retention_rate ≤ 1 := by
  have hrow : (⟨0, 0, 1, 1, (1 : Rat) / (1 : Rat)⟩ : CohortRow) ∈
      build_cohorts id [{ user_id := 1, item_id := 1, ts := 0, event := .view }] := by
    refine mem_build_cohorts.mpr ⟨(0, 0), ?_, ?_⟩
    · simp [cohortPairs, cohortOf, eventsOfUser, minInt]
    · simp [activeUsers, usersOf, eventsOfUser, cohortOf, minInt, activeInPeriod]
  exact ⟨_, hrow, build_cohorts_active_le_size id _ _ hrow⟩

end ProductAnalytics

namespace ProductAnalytics

/-- C5: for every non-empty event log (and every period projection), every
cohort appearing in the cohort/retention output has a row at its own
starting period, and any output row whose observation period equals its
cohort period has active_users = cohort_size and retention_rate = 1. -/
theorem build_cohorts_start_rate_one (pf : Int → Int) (evs : List EventRow)
    (hne : evs ≠ []) (row : CohortRow) (hrow : row ∈ build_cohorts pf evs) :
    (row.period = row.cohort →
      row.active_users = row.cohort_size ∧ row.retention_rate = 1) ∧
    ∃ srow ∈ build_cohorts pf evs,
      srow.cohort = row.cohort ∧ srow.period = row.cohort ∧
      srow.active_users = srow.cohort_size ∧ srow.retention_rate = 1 := by
  rcases mem_build_cohorts.mp hrow with ⟨cp, hcp, rfl⟩
  have hpos := activeUsers_size_pos hcp
  have hratpos : ((activeUsers pf evs cp.1 cp.1 : Nat) : Rat) ≠ 0 := by
    have : (0 : Rat) < ((activeUsers pf evs cp.1 cp.1 : Nat) : Rat) := by exact_mod_cast hpos
    exact ne_of_gt this
  constructor
  · intro hpc
    simp only at hpc
    constructor
    · simp only [hpc]
    · simp only [hpc]
      exact div_self hratpos
  · have hstart := cohort_start_pair_mem hcp
    refine ⟨_, mem_build_cohorts.mpr ⟨(cp.1, cp.1), hstart, rfl⟩, ?_, ?_, ?_, ?_⟩
    · rfl
    · rfl
    · rfl
    · exact div_self hratpos

/-- C5 witness: on the one-event log the unique cohort row sits at its own
starting period with retention rate 1. -/
theorem build_cohorts_start_rate_one_witness :
    ([({ user_id := 1, item_id := 1, ts := 0, event := .view } : EventRow)] ≠ []) ∧
    ∃ row ∈ build_cohorts id [{ user_id := 1, item_id := 1, ts := 0, event := .view }],
      (row.period = row.cohort →
        row.active_users = row.cohort_size ∧ row.retention_rate = 1) ∧
      ∃ srow ∈ build_cohorts id [{ user_id := 1, item_id := 1, ts := 0, event := .view }],
        srow.cohort = row.cohort ∧ srow.period = row.cohort ∧
        srow.active_users = srow.cohort_size ∧ srow.retention_rate = 1 := by
  have hne : ([({ user_id := 1, item_id := 1, ts := 0, event := .view } : EventRow)] ≠ []) := by
    simp
  have hrow : (⟨0, 0, 1, 1, (1 : Rat) / (1 : Rat)⟩ : CohortRow) ∈
      build_cohorts id [{ user_id := 1, item_id := 1, ts := 0, event := .view }] := by
    refine mem_build_cohorts.mpr ⟨(0, 0), ?_, ?_⟩
    · simp [cohortPairs, cohortOf, eventsOfUser, minInt]
    · simp [activeUsers, usersOf, eventsOfUser, cohortOf, minInt, activeInPeriod]
  exact ⟨hne, _, hrow, build_cohorts_start_rate_one id _ hne _ hrow⟩

/-- C6 counterexample: on a one-event log the code's retention_rate is the
direct quotient active_users / cohort_size = 1/1 = 1 exactly, whereas the
claimed epsilon-guarded division would yield 1/(1 + 1e-9) ≠ 1: the cohort
rate division carries no additive epsilon. -/
theorem build_cohorts_eps_counterexample :
    build_cohorts id [{ user_id := 1, item_id := 1, ts := 0, event := .view }] =
      [⟨0, 0, 1, 1, 1⟩] ∧
    retentionRateClaimEps 1 1 ≠ 1 := by
  constructor
  · have h1 : cohortPairs id [({ user_id := 1, item_id := 1, ts := 0, event := .view } : EventRow)] = [(0, 0)] := by
      simp [cohortPairs, cohortOf, eventsOfUser, minInt]
    simp only [build_cohorts, h1, List.map_cons, List.map_nil, List.mergeSort_singleton]
    have h2 : activeUsers id [({ user_id := 1, item_id := 1, ts := 0, event := .view } : EventRow)] 0 0 = 1 := by
      simp [activeUsers, usersOf, eventsOfUser, cohortOf, minInt, activeInPeriod]
    simp [h2]
  · simp only [retentionRateClaimEps]
    norm_num

/-- C6 amended: the cohort retention_rate is the direct division
active_users / cohort_size with no epsilon guard, and it needs none: every
output row's cohort_size is at least 1 (the cohort's starting row always
contains the user that attains the period minimum), so the division is
never by zero and the NaN case is unreachable. -/
theorem build_cohorts_no_eps_size_pos (pf : Int → Int) (evs : List EventRow)
    (row : CohortRow) (hrow : row ∈ build_cohorts pf evs) :
    1 ≤ row.cohort_size ∧
    row.retention_rate = (row.active_users : Rat) / (row.cohort_size : Rat) := by
  rcases mem_build_cohorts.mp hrow with ⟨cp, hcp, rfl⟩
  exact ⟨activeUsers_size_pos hcp, rfl⟩

/-- C6 amended witness: the one-event log's single row has cohort_size 1
and its rate is the direct quotient of its counts. -/
theorem build_cohorts_no_eps_size_pos_witness :
    ∃ row ∈ build_cohorts id [{ user_id := 1, item_id := 1, ts := 0, event := .view }],
      1 ≤ row.cohort_size ∧
      row.retention_rate = (row.active_users : Rat) / (row.cohort_size : Rat) := by
  have hrow : (⟨0, 0, 1, 1, (1 : Rat) / (1 : Rat)⟩ : CohortRow) ∈
      build_cohorts id [{ user_id := 1, item_id := 1, ts := 0, event := .view }] := by
    refine mem_build_cohorts.mpr ⟨(0, 0), ?_, ?_⟩
    · simp [cohortPairs, cohortOf, eventsOfUser, minInt]
    · simp [activeUsers, usersOf, eventsOfUser, cohortOf, minInt, activeInPeriod]
  exact ⟨_, hrow, build_cohorts_no_eps_size_pos id _ _ hrow⟩

end ProductAnalytics

namespace ProductAnalytics

theorem usersOf_length_pos {evs : List EventRow} (hne : evs ≠ []) :
    0 < (usersOf evs).length := by
  rcases List.exists_mem_of_ne_nil evs hne with ⟨e, he⟩
  have hu : e.user_id ∈ usersOf evs := mem_usersOf.mpr ⟨e, he, rfl⟩
  exact List.length_pos.mpr (List.ne_nil_of_mem hu)

/-- C7: for every non-empty event log the funnel output consists of the
signup, activation and day-7 rows; the activation and week-1 retention
counts are each at most the signup count, the signup count is the full
distinct-user population, and the signup step's rate relative to itself
is 1. -/
theorem build_funnel_spec (evs : List EventRow) (hne : evs ≠ []) :
    ∃ s a w : FunnelRow, build_funnel evs = [s, a, w] ∧
      a.users ≤ s.users ∧ w.users ≤ s.users ∧
      s.users = (usersOf evs).length ∧ s.rate_vs_signup = 1 := by
  refine ⟨_, _, _, rfl, ?_, ?_, rfl, ?_⟩
  · exact List.length_filter_le _ _
  · exact List.length_filter_le _ _
  · have hpos : 0 < (usersOf evs).length := usersOf_length_pos hne
    have hne' : ((usersOf evs).length : Rat) ≠ 0 := by
      have : (0 : Rat) < ((usersOf evs).length : Rat) := by exact_mod_cast hpos
      exact ne_of_gt this
    exact div_self hne'

/-- C7 witness: the funnel of the one-event log has signup count 1 with
rate 1, and activation and day-7 counts at most 1. -/
theorem build_funnel_spec_witness :
    ([({ user_id := 1, item_id := 1, ts := 0, event := .view } : EventRow)] ≠ []) ∧
    ∃ s a w : FunnelRow,
      build_funnel [{ user_id := 1, item_id := 1, ts := 0, event := .view }] = [s, a, w] ∧
      a.users ≤ s.users ∧ w.users ≤ s.users ∧
      s.users = (usersOf [{ user_id := 1, item_id := 1, ts := 0, event := .view }]).length ∧
      s.rate_vs_signup = 1 := by
  have hne : ([({ user_id := 1, item_id := 1, ts := 0, event := .view } : EventRow)] ≠ []) := by
    simp
  exact ⟨hne, build_funnel_spec _ hne⟩

end ProductAnalytics

namespace ProductAnalytics

theorem lookup_map_pair (f : Int → Nat) :
    ∀ (l : List Int) (u : Int),
      List.lookup u (l.map (fun x => (x, f x))) =
        if u ∈ l then some (f u) else none := by
  intro l
  induction l with
  | nil => intro u; simp [List.lookup]
  | cons a l ih =>
    intro u
    by_cases h : u = a
    · subst h
      simp [List.lookup]
    · have hba : (u == a) = false := by simp [beq_iff_eq, h]
      simp [List.lookup, hba, ih u, List.mem_cons, h]

theorem t0_attained {evs : List EventRow} {u : Int} (h : u ∈ usersOf evs) :
    ∃ e ∈ eventsOfUser evs u, e.ts = t0 evs u := by
  have hne : ((eventsOfUser evs u).map (fun e => e.ts)) ≠ [] := by
    intro hnil
    exact eventsOfUser_ne_nil h (List.map_eq_nil_iff.mp hnil)
  have hmem := minInt_mem hne
  rcases List.mem_map.mp hmem with ⟨e, he, hp⟩
  exact ⟨e, he, by simpa [t0] using hp⟩

theorem mem_eventsOfUser {evs : List EventRow} {u : Int} {e : EventRow} :
    e ∈ eventsOfUser evs u ↔ e ∈ evs ∧ e.user_id = u := by
  simp [eventsOfUser, List.mem_filter]

theorem t0_le_ts {evs : List EventRow} {e : EventRow} (he : e ∈ evs) :
    t0 evs e.user_id ≤ e.ts := by
  apply minInt_le
  exact List.mem_map.mpr ⟨e, mem_eventsOfUser.mpr ⟨he, rfl⟩, rfl⟩

theorem daysSince_le_iff (evs : List EventRow) (e : EventRow) (W : Int) :
    (daysSince evs e ≤ (W : Rat)) ↔ e.ts ≤ t0 evs e.user_id + W * 86400 := by
  unfold daysSince
  rw [div_le_iff (by norm_num : (0 : Rat) < 86400)]
  rw [show ((W : Rat) * 86400) = ((W * 86400 : Int) : Rat) by push_cast; ring]
  rw [Int.cast_le]
  omega

/-- C8: the per-user metric value of every user equals the number of that
user's `view` events whose timestamp lies in the closed window
[t0, t0 + W days] measured from the user's own first-event timestamp t0
(inclusive of the lower bound) — not from any global clock; users with no
in-window view have no row, read off as 0. -/
theorem user_metric_spec (evs : List EventRow) (W : Int) (u : Int) :
    ((user_metric evs W).lookup u).getD 0 = windowViewsClaim evs W u := by
  have hwin : ∀ e : EventRow, e ∈ evs → e.user_id = u →
      ((decide (e.event = .view) && decide (daysSince evs e ≤ (W : Rat))) =
        (decide (e.event = .view) && decide (t0 evs u ≤ e.ts) &&
          decide (e.ts ≤ t0 evs u + W * 86400))) := by
    intro e he heu
    have ht0 : t0 evs u ≤ e.ts := by
      rw [← heu]; exact t0_le_ts he
    have hiff : (daysSince evs e ≤ (W : Rat)) ↔ (e.ts ≤ t0 evs u + W * 86400) := by
      rw [daysSince_le_iff, heu]
    have hdec : decide (daysSince evs e ≤ (W : Rat)) =
        decide (e.ts ≤ t0 evs u + W * 86400) := by
      simp only [decide_eq_decide]
      exact hiff
    rw [hdec, decide_eq_true ht0, Bool.and_true]
  rw [user_metric]
  rw [lookup_map_pair]
  by_cases hu : u ∈ usersOf (evs.filter
      (fun e => decide (e.event = .view) && decide (daysSince evs e ≤ (W : Rat))))
  · rw [if_pos hu]
    simp only [Option.getD_some]
    rw [windowViewsClaim, eventsOfUser]
    rw [List.filter_filter, List.filter_filter]
    congr 1
    apply List.filter_congr
    intro a ha
    by_cases hu2 : a.user_id = u
    · simp only [decide_eq_true hu2, Bool.true_and, Bool.and_true]
      exact hwin a ha hu2
    · simp [hu2]
  · rw [if_neg hu]
    simp only [Option.getD_none]
    by_contra hne
    have hpos : 0 < windowViewsClaim evs W u := Nat.pos_of_ne_zero (fun h => hne h.symm)
    rw [windowViewsClaim, ← List.countP_eq_length_filter] at hpos
    rcases List.countP_pos_iff.mp hpos with ⟨e, he, hp⟩
    have heu : e.user_id = u := (mem_eventsOfUser.mp he).2
    have hevs : e ∈ evs := (mem_eventsOfUser.mp he).1
    simp only [Bool.and_eq_true, decide_eq_true_eq] at hp
    have hin : e ∈ evs.filter
        (fun e => decide (e.event = .view) && decide (daysSince evs e ≤ (W : Rat))) := by
      refine List.mem_filter.mpr ⟨hevs, ?_⟩
      simp only [Bool.and_eq_true, decide_eq_true_eq]
      refine ⟨hp.1.1, ?_⟩
      rw [daysSince_le_iff, heu]
      exact hp.2
    exact hu (mem_usersOf.mpr ⟨e, hin, heu⟩)

end ProductAnalytics

namespace ProductAnalytics

theorem prepare_events_first_is_view (ratings : List RatingRow) (u : Int)
    (hu : u ∈ usersOf (prepare_events ratings)) :
    ∃ e ∈ prepare_events ratings,
      e.user_id = u ∧ e.event = .view ∧ e.ts = t0 (prepare_events ratings) u := by
  rcases t0_attained hu with ⟨e0, he0, hts⟩
  have he0evs : e0 ∈ prepare_events ratings := (mem_eventsOfUser.mp he0).1
  have he0u : e0.user_id = u := (mem_eventsOfUser.mp he0).2
  have hperm := prepare_events_perm ratings
  have he0c := hperm.mem_iff.mp he0evs
  have hrating : ∃ r ∈ ratings, r.userId = u ∧ r.timestamp = e0.ts := by
    rcases List.mem_append.mp he0c with hl | hcm
    · rcases List.mem_append.mp hl with hv | hlk
      · rcases List.mem_map.mp hv with ⟨r, hr, hre⟩
        refine ⟨r, hr, ?_, ?_⟩
        · rw [← he0u, ← hre]; rfl
        · rw [← hre]; rfl
      · rcases List.mem_map.mp hlk with ⟨r, hr, hre⟩
        refine ⟨r, List.mem_of_mem_filter hr, ?_, ?_⟩
        · rw [← he0u, ← hre]; rfl
        · rw [← hre]; rfl
    · rcases List.mem_map.mp hcm with ⟨r, hr, hre⟩
      refine ⟨r, List.mem_of_mem_filter hr, ?_, ?_⟩
      · rw [← he0u, ← hre]; rfl
      · rw [← hre]; rfl
  rcases hrating with ⟨r, hr, hru, hrt⟩
  refine ⟨viewOf r, ?_, ?_, rfl, ?_⟩
  · apply hperm.mem_iff.mpr
    exact List.mem_append.mpr (Or.inl (List.mem_append.mpr
      (Or.inl (List.mem_map.mpr ⟨r, hr, rfl⟩))))
  · exact hru
  · rw [show (viewOf r).ts = r.timestamp from rfl, hrt, hts]

/-- C10: for every ratings table and every window_days ≥ 0, the per-user
metric over the derived event log contains a row for every distinct user
of the log, with value at least 1: each user's earliest timestamp carries
a `view` event, which falls at exactly 0 days since that user's t0 and is
therefore counted. -/
theorem user_metric_covers_all_users (ratings : List RatingRow) (W : Int)
    (hW : 0 ≤ W) (u : Int) (hu : u ∈ usersOf (prepare_events ratings)) :
    ∃ v, (user_metric (prepare_events ratings) W).lookup u = some v ∧ 1 ≤ v := by
  rcases prepare_events_first_is_view ratings u hu with ⟨e, he, heu, hev, hets⟩
  have hin : e ∈ (prepare_events ratings).filter
      (fun x => decide (x.event = .view) &&
        decide (daysSince (prepare_events ratings) x ≤ (W : Rat))) := by
    refine List.mem_filter.mpr ⟨he, ?_⟩
    simp only [Bool.and_eq_true, decide_eq_true_eq]
    refine ⟨hev, ?_⟩
    unfold daysSince
    rw [heu, hets, sub_self]
    rw [Int.cast_zero, zero_div]
    exact_mod_cast hW
  have humem : u ∈ usersOf ((prepare_events ratings).filter
      (fun x => decide (x.event = .view) &&
        decide (daysSince (prepare_events ratings) x ≤ (W : Rat)))) :=
    mem_usersOf.mpr ⟨e, hin, heu⟩
  rw [user_metric, lookup_map_pair, if_pos humem]
  refine ⟨_, rfl, ?_⟩
  have hmemf : e ∈ ((prepare_events ratings).filter
      (fun x => decide (x.event = .view) &&
        decide (daysSince (prepare_events ratings) x ≤ (W : Rat)))).filter
      (fun x => decide (x.user_id = u)) := by
    refine List.mem_filter.mpr ⟨hin, ?_⟩
    simp [heu]
  exact List.length_pos.mpr (List.ne_nil_of_mem hmemf)

end ProductAnalytics

namespace ProductAnalytics

/-- C10 witness: on the one-rating table (rating 3, so only a view is
derived) and window 0, user 1 gets a metric row with value at least 1. -/
theorem user_metric_covers_all_users_witness :
    ((0 : Int) ≤ 0) ∧ ((1 : Int) ∈ usersOf (prepare_events [⟨1, 1, 3, 0⟩])) ∧
    ∃ v, (user_metric (prepare_events [⟨1, 1, 3, 0⟩]) 0).lookup 1 = some v ∧ 1 ≤ v := by
  have h1 : prepare_events [(⟨1, 1, 3, 0⟩ : RatingRow)] = [viewOf ⟨1, 1, 3, 0⟩] := by
    unfold prepare_events
    have hf1 : ¬ ((4 : Rat) ≤ 3) := by norm_num
    have hf2 : ¬ ((9 : Rat)/2 ≤ 3) := by norm_num
    simp [hf1, hf2]
  have hu : (1 : Int) ∈ usersOf (prepare_events [⟨1, 1, 3, 0⟩]) := by
    rw [h1]
    simp [usersOf, viewOf]
  exact ⟨le_refl 0, hu, user_metric_covers_all_users [⟨1, 1, 3, 0⟩] 0 (le_refl 0) 1 hu⟩

theorem assignFrom_getElem (rng : Nat → Nat → Rat) (seed : Nat) (p_treat : Rat) :
    ∀ (l : List Int) (k i : Nat),
      (assignFrom rng seed p_treat k l)[i]? =
        (l[i]?).map
          (fun u => (u, if rng seed (k + i) < p_treat then Variant.T else Variant.C)) := by
  intro l
  induction l with
  | nil => intro k i; simp [assignFrom]
  | cons a l ih =>
    intro k i
    cases i with
    | zero => simp [assignFrom]
    | succ n =>
      have hk : k + (n + 1) = (k + 1) + n := by omega
      simp [assignFrom, ih (k + 1) n, hk]

/-- C4: variant assignment is deterministic — with the rng stream a pure
function of the seed, two calls with the same stream, seed, user list and
treatment probability are equal — and the user at position i is labelled
Treatment exactly when its seeded uniform draw at stream index i is below
p_treat, Control otherwise. -/
theorem random_assign_users_spec (rng : Nat → Nat → Rat) (users : List Int)
    (seed : Nat) (p_treat : Rat) :
    random_assign_users rng users seed p_treat =
        random_assign_users rng users seed p_treat ∧
    ∀ i : Nat,
      (random_assign_users rng users seed p_treat)[i]? =
        (users[i]?).map
          (fun u => (u, if rng seed i < p_treat then Variant.T else Variant.C)) := by
  refine ⟨rfl, ?_⟩
  intro i
  simpa using assignFrom_getElem rng seed p_treat users 0 i

theorem zip_self_eq_map {α : Type} (l : List α) :
    l.zip l = l.map (fun a => (a, a)) := by
  induction l with
  | nil => rfl
  | cons a l ih => simp [List.zip_cons_cons, ih]

/-- C3: the CUPED adjustment with the covariate taken identical to the
outcome gives, in every row, exactly y·ε/(Var(y)+ε) with ε = 1e-9 — the
approximately-zero residual left by θ = Var(y)/(Var(y)+ε); the length
hypothesis matches the domain on which the pandas sample variance is
defined. -/
theorem cuped_adjust_self (y : List Rat) (h : 2 ≤ y.length) :
    cuped_adjust y y =
      y.map (fun v => v * ((1/1000000000) / (sampleVar y + 1/1000000000))) := by
  have hlen : (2 : Rat) ≤ (y.length : Rat) := by exact_mod_cast h
  have hvar : 0 ≤ sampleVar y := by
    unfold sampleVar
    apply div_nonneg
    · apply List.sum_nonneg
      intro x hx
      rcases List.mem_map.mp hx with ⟨v, _, rfl⟩
      positivity
    · linarith
  have hcov : sampleCov y y = sampleVar y := by
    unfold sampleCov sampleVar
    rw [zip_self_eq_map, List.map_map]
    congr 1
    congr 1
    apply List.map_congr_left
    intro a _
    simp only [Function.comp]
    ring
  have hne : sampleVar y + 1/1000000000 ≠ 0 := by positivity
  unfold cuped_adjust
  rw [zip_self_eq_map, List.map_map, hcov]
  apply List.map_congr_left
  intro a _
  simp only [Function.comp]
  field_simp
  ring

/-- C3 witness: applying the adjustment to the two-row vector (0, 1) with
itself as covariate yields exactly the ε/(Var+ε)-scaled rows. -/
theorem cuped_adjust_self_witness :
    (2 ≤ ([0, 1] : List Rat).length) ∧
    cuped_adjust [0, 1] [0, 1] =
      ([0, 1] : List Rat).map
        (fun v => v * ((1/1000000000) / (sampleVar [0, 1] + 1/1000000000))) := by
  refine ⟨by simp, cuped_adjust_self [0, 1] (by simp)⟩

theorem exp_320_gt : (1000 : ℝ) < Real.exp 320 := by
  have h160 : (161 : ℝ) ≤ Real.exp 160 := by
    have := Real.add_one_le_exp (160 : ℝ)
    linarith
  have hpos : (0 : ℝ) < Real.exp 160 := Real.exp_pos _
  have hsq : Real.exp 320 = Real.exp 160 * Real.exp 160 := by
    rw [← Real.exp_add]; norm_num
  nlinarith

/-- C2: the SRM check forms the two-cell chi-square statistic against the
expected 50/50 split (0 for a 500/500 table, 640 for a 900/100 table) and
returns the right-tail p-value `sf χ²`; for every survival function with
`sf 0 = 1` and the chi-square(1) Chernoff bound, any 500/500 assignment
gets p > 0.9 and any 900/100 assignment gets p < 0.001. -/
theorem srm_check_spec (sf : ℝ → ℝ) (hzero : sf 0 = 1)
    (hbound : ∀ x : ℝ, 0 ≤ x → sf x ≤ Real.exp (-(x/2)))
    (a b : List Variant)
    (haT : (a.filter (fun v => decide (v = Variant.T))).length = 500)
    (haC : (a.filter (fun v => decide (v = Variant.C))).length = 500)
    (hbT : (b.filter (fun v => decide (v = Variant.T))).length = 900)
    (hbC : (b.filter (fun v => decide (v = Variant.C))).length = 100) :
    srm_chi2 a = 0 ∧ srm_chi2 b = 640 ∧
    9/10 < srm_check sf a ∧ srm_check sf b < 1/1000 := by
  have hca : srm_chi2 a = 0 := by
    unfold srm_chi2
    rw [haT, haC]
    norm_num
  have hcb : srm_chi2 b = 640 := by
    unfold srm_chi2
    rw [hbT, hbC]
    norm_num
  refine ⟨hca, hcb, ?_, ?_⟩
  · unfold srm_check
    rw [hca]
    rw [show (((0 : Rat) : ℝ)) = 0 by norm_num]
    rw [hzero]
    norm_num
  · unfold srm_check
    rw [hcb]
    rw [show (((640 : Rat) : ℝ)) = 640 by norm_num]
    have hb := hbound 640 (by norm_num)
    have he : Real.exp (-((640 : ℝ)/2)) = Real.exp (-320) := by norm_num
    have hlt : Real.exp (-(320 : ℝ)) < 1/1000 := by
      rw [Real.exp_neg]
      rw [show (1 : ℝ)/1000 = ((1000 : ℝ))⁻¹ by norm_num]
      exact inv_lt_inv_of_lt (by norm_num) exp_320_gt
    calc sf 640 ≤ Real.exp (-((640 : ℝ)/2)) := hb
    _ = Real.exp (-320) := he
    _ < 1/1000 := hlt

/-- C2 witness: with the Chernoff-bound survival function itself, the
explicit 500/500 and 900/100 assignment tables get the claimed p-values. -/
theorem srm_check_spec_witness :
    srm_chi2 (List.replicate 500 Variant.T ++ List.replicate 500 Variant.C) = 0 ∧
    srm_chi2 (List.replicate 900 Variant.T ++ List.replicate 100 Variant.C) = 640 ∧
    9/10 < srm_check (fun x => Real.exp (-(x/2)))
      (List.replicate 500 Variant.T ++ List.replicate 500 Variant.C) ∧
    srm_check (fun x => Real.exp (-(x/2)))
      (List.replicate 900 Variant.T ++ List.replicate 100 Variant.C) < 1/1000 := by
  refine srm_check_spec (fun x => Real.exp (-(x/2))) (by norm_num) (fun x _ => le_refl _)
    _ _ ?_ ?_ ?_ ?_
  all_goals
    simp only [List.filter_append, List.filter_replicate]
    norm_num
    decide

end ProductAnalytics
